import Mathlib

/-!
# Verification of the compounded-in-arrears interest engine (`src/api/calc.py`)

Shallow embedding conventions:

* Calendar dates are modelled as integers `ℤ` (days since an arbitrary epoch);
  `date` subtraction `(a - b).days` becomes `a - b`, and `timedelta(days = k)`
  addition becomes `+ k`.
* Python `Decimal` values are modelled as exact rationals `ℚ`.  The engine sets
  `getcontext().prec = 34`; following the specification's requirement of an
  "arbitrary/extended-precision decimal type", the ambient context precision is
  treated as exact and only the *explicit* `quantize` calls of the source are
  modelled (`quantize_money`, and the 18-decimal-place re-quantization of the
  running factor when `is_sonia` is set).  `ROUND_HALF_UP` rounds ties away
  from zero, which `roundHalfUpInt` reproduces on both signs.
* The rate series (`OrderedDict` sorted by date) is modelled as an association
  list `List (ℤ × ℚ)`; its key list (in order) plays the role of `bdays`.
  `bdays_index[d]` is `bdays.indexOf d` (keys are distinct in an
  `OrderedDict`, so the index of the unique occurrence is the position).
* Python exceptions become `Except CalcError`; the four raise sites of the
  core correspond to the four constructors.
* The `while` loops (the two binary searches and the compounding loop) are
  written with an explicit fuel parameter so that every definition is
  executable by reduction; the callers supply fuel that provably suffices
  (each binary-search step shrinks `hi + 1 - lo`, and each compounding step
  advances `current_date` by at least one day), so the fuel-exhaustion
  branches are unreachable and return the value the exhausted `while` loop
  would return.
* The per-day trace (`daily_details`, built only when `return_daily_details`
  is set) is an output log that never feeds back into the computation; it is
  omitted from the embedding, as is the `float(...)` conversion applied to the
  exact `Decimal` results immediately before JSON serialization.
-/

/-- The four error kinds raised by the core (`ValueError`s in the source,
named as in the specification §7). -/
inductive CalcError where
  | invalidRequest : CalcError
  | noBusinessDay : CalcError
  | notABusinessDay : CalcError
  | insufficientHistory : CalcError
deriving DecidableEq

/-- Rounding `ROUND_HALF_UP` to an integer: round half away from zero
(`Decimal` semantics of the rounding mode used throughout the source). -/
def roundHalfUpInt (x : ℚ) : ℤ :=
  if 0 ≤ x then ⌊x + 1/2⌋ else -⌊-x + 1/2⌋

/-- Quantization `x.quantize(Decimal(10^-k), rounding=ROUND_HALF_UP)`. -/
def quantizeDec (k : ℕ) (x : ℚ) : ℚ :=
  (roundHalfUpInt (x * 10 ^ k) : ℚ) / 10 ^ k

/-- Function `quantize_money` (src/api/calc.py line 26): round to 2 decimal places,
half up. -/
def quantize_money (x : ℚ) : ℚ :=
  quantizeDec 2 x

/-- The `while lo <= hi` binary-search loop of `previous_business_day`
(src/api/calc.py lines 30-42), with explicit fuel.  `ans` is the best
candidate found so far.  With fuel at least `(hi + 1 - lo).toNat` the
fuel-0 branch is only reached when `lo > hi`, where returning `ans` is
exactly what the exhausted `while` loop does. -/
def bsearchLE (bdays : List ℤ) (d : ℤ) : ℕ → ℤ → ℤ → Option ℤ → Option ℤ
  | 0, _, _, ans => ans
  | fuel + 1, lo, hi, ans =>
    if lo ≤ hi then
      let mid := (lo + hi) / 2
      let v := bdays.getD mid.toNat 0
      if v ≤ d then bsearchLE bdays d fuel (mid + 1) hi (some v)
      else bsearchLE bdays d fuel lo (mid - 1) ans
    else ans

/-- The `while lo <= hi` binary-search loop of `next_business_day`
(src/api/calc.py lines 54-66), symmetric to `bsearchLE`. -/
def bsearchGE (bdays : List ℤ) (d : ℤ) : ℕ → ℤ → ℤ → Option ℤ → Option ℤ
  | 0, _, _, ans => ans
  | fuel + 1, lo, hi, ans =>
    if lo ≤ hi then
      let mid := (lo + hi) / 2
      let v := bdays.getD mid.toNat 0
      if d ≤ v then bsearchGE bdays d fuel lo (mid - 1) (some v)
      else bsearchGE bdays d fuel (mid + 1) hi ans
    else ans

/-- Function `previous_business_day` (src/api/calc.py lines 30-42): latest business
day on/before `d`, else `NoBusinessDay`. -/
def previous_business_day (bdays : List ℤ) (d : ℤ) : Except CalcError ℤ :=
  match bsearchLE bdays d bdays.length 0 ((bdays.length : ℤ) - 1) none with
  | some a => .ok a
  | none => .error .noBusinessDay

/-- Function `next_business_day` (src/api/calc.py lines 54-66): earliest business day
on/after `d`, else `NoBusinessDay`. -/
def next_business_day (bdays : List ℤ) (d : ℤ) : Except CalcError ℤ :=
  match bsearchGE bdays d bdays.length 0 ((bdays.length : ℤ) - 1) none with
  | some a => .ok a
  | none => .error .noBusinessDay

/-- Function `shift_back_business_days` (src/api/calc.py lines 45-51): requires `d` to
be an exact business day, moves `n` positions earlier in the sorted sequence,
`InsufficientHistory` if the target position is negative. -/
def shift_back_business_days (bdays : List ℤ) (d : ℤ) (n : ℤ) : Except CalcError ℤ :=
  if d ∈ bdays then
    let i : ℤ := (bdays.indexOf d : ℤ) - n
    if i < 0 then .error .insufficientHistory
    else .ok (bdays.getD i.toNat 0)
  else .error .notABusinessDay

/-- Lookup `rates[obs]` in the series.  In the engine the looked-up date
is always a member of the key list, so the default is never returned. -/
def rateAt (series : List (ℤ × ℚ)) (d : ℤ) : ℚ :=
  (series.lookup d).getD 0

/-- The update of the running factor `C` by one period factor
(src/api/calc.py lines 221-224): multiply, then re-quantize to 18 decimal
places (half-up) when `is_sonia` is set. -/
def applyFactor (is_sonia : Bool) (C f : ℚ) : ℚ :=
  if is_sonia then quantizeDec 18 (C * f) else C * f

/-- One iteration of the compounding loop body up to the computation of
`days_applied` and the observed rate (src/api/calc.py lines 210-219). -/
def accrueStep (series : List (ℤ × ℚ)) (bdays : List ℤ) (lookback_bdays : ℤ)
    (endD cur : ℤ) : Except CalcError (ℤ × ℚ) :=
  let bn : Except CalcError (ℤ × ℤ) :=
    if cur ∈ bdays then
      match next_business_day bdays (cur + 1) with
      | .ok nb => .ok (cur, nb)
      | .error e => .error e
    else
      match previous_business_day bdays cur with
      | .ok b =>
        match next_business_day bdays cur with
        | .ok nb => .ok (b, nb)
        | .error e => .error e
      | .error e => .error e
  match bn with
  | .error e => .error e
  | .ok (b, nb) =>
    let days := min (nb - cur) (endD - cur)
    match shift_back_business_days bdays b lookback_bdays with
    | .error e => .error e
    | .ok obs => .ok (days, rateAt series obs)

/-- The `while current_date < end` compounding loop
(src/api/calc.py lines 208-240), with explicit fuel.  With fuel at least
`(endD - cur).toNat` the fuel-0 branch is only reached when `cur ≥ endD`,
where returning `C` is exactly what the finished `while` loop does. -/
def accrueLoop (series : List (ℤ × ℚ)) (bdays : List ℤ) (lookback_bdays : ℤ)
    (endD : ℤ) (N : ℚ) (is_sonia : Bool) : ℕ → ℤ → ℚ → Except CalcError ℚ
  | 0, _, C => .ok C
  | fuel + 1, cur, C =>
    if cur < endD then
      match accrueStep series bdays lookback_bdays endD cur with
      | .error e => .error e
      | .ok (days, r) =>
        accrueLoop series bdays lookback_bdays endD N is_sonia fuel
          (cur + days) (applyFactor is_sonia C (1 + r * (days : ℚ) / N))
    else .ok C

/-- The pre/post margin split around the optional change date
(src/api/calc.py lines 245-263).  Returns
`(pre_days, post_days, m1, m2, eff)`. -/
def marginSplit (start endD dc : ℤ) (margin_pa : ℚ) (margin_pa_after : Option ℚ)
    (margin_change_date : Option ℤ) : ℤ × ℤ × ℚ × ℚ × Option ℤ :=
  let m1 := margin_pa
  let m2 := margin_pa_after.getD margin_pa
  match margin_change_date with
  | none => (dc, 0, m1, m2, none)
  | some eff =>
    if eff ≤ start then (0, dc, m2, m2, some eff)
    else if endD ≤ eff then (dc, 0, m1, m1, some eff)
    else (eff - start, endD - eff, m1, m2, some eff)

/-- The result record assembled at src/api/calc.py lines 277-291 (monetary
fields already `quantize_money`'d; the late `float(...)` casts for JSON are
not modelled). -/
structure AccrualResult where
  interest_total : ℚ
  interest_rfr : ℚ
  interest_margin : ℚ
  interest_cas : ℚ
  compounded_factor : ℚ
  rfr_annualized : ℚ
  applicable_annualized_rate : ℚ
  dc : ℤ
  N : ℤ
  pre_days : ℤ
  post_days : ℤ
  margin_pre : ℚ
  margin_post : ℚ
  effective_date : Option ℤ
deriving DecidableEq

/-- The accrual splitter and result assembler
(src/api/calc.py lines 242-291), run after the loop has produced `C`. -/
def assembleResult (principal : ℚ) (start endD : ℤ) (C : ℚ) (basis_days : ℤ)
    (margin_pa cas_pa : ℚ) (margin_change_date : Option ℤ)
    (margin_pa_after : Option ℚ) : AccrualResult :=
  let N : ℚ := (basis_days : ℚ)
  let dc : ℤ := endD - start
  let dcf_total : ℚ := (dc : ℚ) / N
  let s := marginSplit start endD dc margin_pa margin_pa_after margin_change_date
  let pre_days := s.1
  let post_days := s.2.1
  let m1 := s.2.2.1
  let m2 := s.2.2.2.1
  let eff := s.2.2.2.2
  let dcf_pre : ℚ := (pre_days : ℚ) / N
  let dcf_post : ℚ := (post_days : ℚ) / N
  let interest_rfr := (C - 1) * principal
  let interest_margin := (m1 * dcf_pre + m2 * dcf_post) * principal
  let interest_cas := cas_pa * dcf_total * principal
  let interest_total := interest_rfr + interest_margin + interest_cas
  let rfr_annualized := if dc ≠ 0 then (C - 1) * (N / (dc : ℚ)) else 0
  let margin_pa_weighted :=
    if dc ≠ 0 then
      (m1 * dcf_pre + m2 * dcf_post) / (if dcf_total ≠ 0 then dcf_total else 1)
    else 0
  { interest_total := quantize_money interest_total
    interest_rfr := quantize_money interest_rfr
    interest_margin := quantize_money interest_margin
    interest_cas := quantize_money interest_cas
    compounded_factor := C
    rfr_annualized := rfr_annualized
    applicable_annualized_rate := rfr_annualized + margin_pa_weighted + cas_pa
    dc := dc
    N := basis_days
    pre_days := pre_days
    post_days := post_days
    margin_pre := m1
    margin_post := m2
    effective_date := eff }

/-- Function `compute_interest_compounded_in_arrears` (src/api/calc.py lines 177-296):
validation, pre-check of lookback history, compounding loop, splitter and
assembler. -/
def compute_interest_compounded_in_arrears (principal : ℚ) (start endD : ℤ)
    (lookback_bdays : ℤ) (series : List (ℤ × ℚ)) (basis_days : ℤ)
    (margin_pa cas_pa : ℚ) (margin_change_date : Option ℤ)
    (margin_pa_after : Option ℚ) (is_sonia : Bool) :
    Except CalcError AccrualResult :=
  if lookback_bdays < 1 then .error .invalidRequest
  else if endD ≤ start then .error .invalidRequest
  else
    let bdays := series.map Prod.fst
    if bdays.isEmpty then .error .invalidRequest
    else
      match previous_business_day bdays start with
      | .error e => .error e
      | .ok first_needed_bd =>
        match shift_back_business_days bdays first_needed_bd lookback_bdays with
        | .error e => .error e
        | .ok _ =>
          match accrueLoop series bdays lookback_bdays endD (basis_days : ℚ)
              is_sonia (endD - start).toNat start 1 with
          | .error e => .error e
          | .ok C =>
            .ok (assembleResult principal start endD C basis_days margin_pa
              cas_pa margin_change_date margin_pa_after)

/-- Keys of the rate series are strictly increasing (invariant of the
`OrderedDict(sorted(...))` construction feeding the engine). -/
def SortedKeys (series : List (ℤ × ℚ)) : Prop :=
  (series.map Prod.fst).Sorted (· < ·)

/-- Modelled from the spec (§4.2, and claim C1's wording): the growth factor
over `[cur, endD)` as the product of run factors, where the applicable
business day of a run is `cur` itself when `cur` is in the series (bounded by
the earliest business day strictly after `cur`) and otherwise the latest
business day on/before `cur` (bounded by the earliest business day on/after
`cur`); `days` is clipped by the requested end; the rate is the one stored at
the date `lookback` positions earlier in the sorted business-day sequence.
The `is_sonia` flag applies the documented 18-decimal re-quantization of the
running product after each multiplication (§4.2 step 4); with it off the
result is the exact product of the run factors.

`specApplicable` is the per-day selection: the applicable business day
together with the bounding next business day, `none` when the calendar
cannot supply them. -/
def specApplicable (bdays : List ℤ) (cur : ℤ) : Option (ℤ × ℤ) :=
  if cur ∈ bdays then
    match (bdays.filter (fun b => cur < b)).min? with
    | some nb => some (cur, nb)
    | none => none
  else
    match (bdays.filter (fun b => b ≤ cur)).max?,
        (bdays.filter (fun b => cur ≤ b)).min? with
    | some bd, some nb => some (bd, nb)
    | _, _ => none

/-- Modelled from the spec (§4.2 algorithm): the run decomposition driven by
`specApplicable`, accumulating the factor product (with the documented
per-step re-quantization exactly when `is_sonia`). -/
def specGrowth (series : List (ℤ × ℚ)) (lookback : ℤ) (endD : ℤ) (N : ℚ)
    (is_sonia : Bool) : ℕ → ℤ → ℚ → Option ℚ
  | 0, _, C => some C
  | fuel + 1, cur, C =>
    if cur < endD then
      let bdays := series.map Prod.fst
      match specApplicable bdays cur with
      | none => none
      | some (bd, nb) =>
        let days := min (nb - cur) (endD - cur)
        let i : ℤ := (bdays.indexOf bd : ℤ) - lookback
        if i < 0 then none
        else
          let r := rateAt series (bdays.getD i.toNat 0)
          specGrowth series lookback endD N is_sonia fuel (cur + days)
            (applyFactor is_sonia C (1 + r * (days : ℚ) / N))
    else some C

/-! ## Helper lemmas -/

lemma loop_done (series : List (ℤ × ℚ)) (bdays : List ℤ) (lb endD : ℤ) (N : ℚ)
    (sonia : Bool) (fuel : ℕ) (cur : ℤ) (C : ℚ) (h : ¬ cur < endD) :
    accrueLoop series bdays lb endD N sonia fuel cur C = .ok C := by
  cases fuel <;> simp [accrueLoop, h]

lemma loop_step_ok {series : List (ℤ × ℚ)} {bdays : List ℤ} {lb endD : ℤ} {N : ℚ}
    {sonia : Bool} {fuel : ℕ} {cur : ℤ} {C : ℚ} {days : ℤ} {r : ℚ}
    (h : cur < endD) (hs : accrueStep series bdays lb endD cur = .ok (days, r)) :
    accrueLoop series bdays lb endD N sonia (fuel + 1) cur C
      = accrueLoop series bdays lb endD N sonia fuel (cur + days)
          (applyFactor sonia C (1 + r * (days : ℚ) / N)) := by
  simp [accrueLoop, h, hs]

lemma loop_step_err {series : List (ℤ × ℚ)} {bdays : List ℤ} {lb endD : ℤ} {N : ℚ}
    {sonia : Bool} {fuel : ℕ} {cur : ℤ} {C : ℚ} {e : CalcError}
    (h : cur < endD) (hs : accrueStep series bdays lb endD cur = .error e) :
    accrueLoop series bdays lb endD N sonia (fuel + 1) cur C = .error e := by
  simp [accrueLoop, h, hs]

/-- Inversion of a successful `compute_interest_compounded_in_arrears` run. -/
lemma compute_ok_inv {P : ℚ} {start endD lb : ℤ} {series : List (ℤ × ℚ)}
    {basis : ℤ} {m cas : ℚ} {chg : Option ℤ} {mA : Option ℚ} {sonia : Bool}
    {res : AccrualResult}
    (h : compute_interest_compounded_in_arrears P start endD lb series basis
      m cas chg mA sonia = .ok res) :
    1 ≤ lb ∧ start < endD ∧ series.map Prod.fst ≠ [] ∧
    ∃ p0 q0 C,
      previous_business_day (series.map Prod.fst) start = .ok p0 ∧
      shift_back_business_days (series.map Prod.fst) p0 lb = .ok q0 ∧
      accrueLoop series (series.map Prod.fst) lb endD (basis : ℚ) sonia
        (endD - start).toNat start 1 = .ok C ∧
      res = assembleResult P start endD C basis m cas chg mA := by
  unfold compute_interest_compounded_in_arrears at h
  split at h
  · exact absurd h (by simp)
  split at h
  · exact absurd h (by simp)
  dsimp only at h
  split at h
  · exact absurd h (by simp)
  rename_i h1 h2 h3
  refine ⟨by omega, by omega, by simpa [List.isEmpty_iff] using h3, ?_⟩
  split at h
  · exact absurd h (by simp)
  rename_i p0 hp
  split at h
  · exact absurd h (by simp)
  rename_i q0 hq
  split at h
  · exact absurd h (by simp)
  rename_i C hc
  exact ⟨p0, q0, C, hp, hq, hc, (Except.ok.inj h).symm⟩

/-! ## Claims C3-C6: accrual splitter and result assembler -/

/-- C3: for every valid request, in every branch of the accrual splitter the
pre-segment day count plus the post-segment day count equals exactly
`dc = (end - start)` in days. -/
theorem C3_split_sums_to_dc {P : ℚ} {start endD lb : ℤ} {series : List (ℤ × ℚ)}
    {basis : ℤ} {m cas : ℚ} {chg : Option ℤ} {mA : Option ℚ} {sonia : Bool}
    {res : AccrualResult}
    (h : compute_interest_compounded_in_arrears P start endD lb series basis
      m cas chg mA sonia = .ok res) :
    res.pre_days + res.post_days = endD - start := by
  obtain ⟨-, -, -, p0, q0, C, -, -, -, hres⟩ := compute_ok_inv h
  subst hres
  simp only [assembleResult]
  cases chg with
  | none => simp [marginSplit]
  | some eff =>
    by_cases h1 : eff ≤ start
    · simp [marginSplit, h1]
    by_cases h2 : endD ≤ eff
    · simp [marginSplit, h1, h2]
    · simp [marginSplit, h1, h2]

/-- C4: boundary policy of the accrual splitter with a margin-change date:
change on/before start routes all days to the post-change margin, change
on/after end routes all days to the pre-change margin, and a strictly
interior change splits `(changeDate - start)` days at the pre margin from
`(end - changeDate)` days at the post margin (defaulting to the pre margin
when no post-change margin was supplied). -/
theorem C4_change_date_boundaries {P : ℚ} {start endD lb : ℤ}
    {series : List (ℤ × ℚ)} {basis : ℤ} {m cas : ℚ} {eff : ℤ} {mA : Option ℚ}
    {sonia : Bool} {res : AccrualResult}
    (h : compute_interest_compounded_in_arrears P start endD lb series basis
      m cas (some eff) mA sonia = .ok res) :
    (eff ≤ start → res.pre_days = 0 ∧ res.post_days = endD - start ∧
      res.margin_pre = mA.getD m ∧ res.margin_post = mA.getD m) ∧
    (endD ≤ eff → res.pre_days = endD - start ∧ res.post_days = 0 ∧
      res.margin_pre = m ∧ res.margin_post = m) ∧
    (start < eff → eff < endD → res.pre_days = eff - start ∧
      res.post_days = endD - eff ∧ res.margin_pre = m ∧
      res.margin_post = mA.getD m) := by
  obtain ⟨-, -, -, p0, q0, C, -, -, -, hres⟩ := compute_ok_inv h
  subst hres
  refine ⟨fun h1 => ?_, fun h2 => ?_, fun h3 h4 => ?_⟩
  · simp [assembleResult, marginSplit, h1]
  · have h1 : ¬ eff ≤ start := by
      obtain ⟨-, hlt, -⟩ := compute_ok_inv h
      omega
    simp [assembleResult, marginSplit, h1, h2]
  · simp [assembleResult, marginSplit, not_le.mpr h3, not_le.mpr h4,
      le_of_lt h3, le_of_lt h4]

/-- C5 (amended): with no margin-change date all `dc` days form the pre
segment at the original margin and the post segment has zero days; the
*reported* post-segment margin is the supplied post-change margin value when
one was given (even without a change date) and the original margin otherwise,
while the margin interest is computed from the pre margin alone. -/
theorem C5_no_change_date {P : ℚ} {start endD lb : ℤ} {series : List (ℤ × ℚ)}
    {basis : ℤ} {m cas : ℚ} {mA : Option ℚ} {sonia : Bool} {res : AccrualResult}
    (h : compute_interest_compounded_in_arrears P start endD lb series basis
      m cas none mA sonia = .ok res) :
    res.pre_days = endD - start ∧ res.post_days = 0 ∧ res.margin_pre = m ∧
    res.margin_post = mA.getD m ∧ res.effective_date = none ∧
    res.interest_margin
      = quantize_money (m * (((endD - start : ℤ) : ℚ) / (basis : ℚ)) * P) := by
  obtain ⟨-, -, -, p0, q0, C, -, -, -, hres⟩ := compute_ok_inv h
  subst hres
  refine ⟨by simp [assembleResult, marginSplit],
    by simp [assembleResult, marginSplit],
    by simp [assembleResult, marginSplit],
    by simp [assembleResult, marginSplit],
    by simp [assembleResult, marginSplit], ?_⟩
  simp only [assembleResult, marginSplit]
  congr 1
  push_cast
  ring

/-- C6: each reported interest component is independently rounded to 2
decimal places half-up, while the reported total is the half-up rounding of
the sum of the three *unrounded* components — which can differ from the sum
of the rounded components. -/
theorem C6_component_rounding {P : ℚ} {start endD lb : ℤ}
    {series : List (ℤ × ℚ)} {basis : ℤ} {m cas : ℚ} {chg : Option ℤ}
    {mA : Option ℚ} {sonia : Bool} {res : AccrualResult}
    (h : compute_interest_compounded_in_arrears P start endD lb series basis
      m cas chg mA sonia = .ok res) :
    res.interest_rfr = quantize_money ((res.compounded_factor - 1) * P) ∧
    res.interest_margin = quantize_money
      ((res.margin_pre * ((res.pre_days : ℚ) / (basis : ℚ))
        + res.margin_post * ((res.post_days : ℚ) / (basis : ℚ))) * P) ∧
    res.interest_cas = quantize_money
      (cas * (((endD - start : ℤ) : ℚ) / (basis : ℚ)) * P) ∧
    res.interest_total = quantize_money
      (((res.compounded_factor - 1) * P)
        + ((res.margin_pre * ((res.pre_days : ℚ) / (basis : ℚ))
            + res.margin_post * ((res.post_days : ℚ) / (basis : ℚ))) * P)
        + (cas * (((endD - start : ℤ) : ℚ) / (basis : ℚ)) * P)) ∧
    quantize_money (1/250 + 1/250)
      ≠ quantize_money (1/250) + quantize_money (1/250) := by
  obtain ⟨-, -, -, p0, q0, C, -, -, -, hres⟩ := compute_ok_inv h
  subst hres
  refine ⟨rfl, rfl, rfl, rfl, ?_⟩
  norm_num [quantize_money, quantizeDec, roundHalfUpInt]

/-! ## Claim C7: shiftBack -/

/-- C7: the lookback shift `shiftBack(d, n)` fails with `NotABusinessDay` when `d` is not in the
sorted business-day sequence; when `d` sits at position `i` it returns the
date at position `i - n` when that is nonnegative and fails with
`InsufficientHistory` (no clamping) when `i < n`. -/
theorem C7_shift_back (bdays : List ℤ) (d n : ℤ) (hs : bdays.Sorted (· < ·))
    (hn1 : 1 ≤ n) :
    (d ∉ bdays → shift_back_business_days bdays d n = .error .notABusinessDay) ∧
    (∀ i : ℕ, ∀ hi : i < bdays.length, bdays.get ⟨i, hi⟩ = d →
      (n ≤ (i : ℤ) → shift_back_business_days bdays d n
          = .ok (bdays.getD ((i : ℤ) - n).toNat 0)) ∧
      ((i : ℤ) < n → shift_back_business_days bdays d n
          = .error .insufficientHistory)) := by
  constructor
  · intro hd; simp [shift_back_business_days, hd]
  · intro i hi hget
    have hmem : d ∈ bdays := hget ▸ List.get_mem bdays i hi
    have hidx : bdays.indexOf d = i := by
      have h1 := List.indexOf_get (List.indexOf_lt_length.2 hmem)
      have h2 : bdays.get ⟨bdays.indexOf d, List.indexOf_lt_length.2 hmem⟩
          = bdays.get ⟨i, hi⟩ := by rw [h1, hget]
      have h3 := (hs.nodup.get_inj_iff).mp h2
      exact congrArg Fin.val h3
    constructor
    · intro hn
      have hge : ¬ ((bdays.indexOf d : ℤ) - n < 0) := by rw [hidx]; omega
      simp [shift_back_business_days, hmem, hge, hidx]
      omega
    · intro hn
      have hlt : (bdays.indexOf d : ℤ) - n < 0 := by rw [hidx]; omega
      simp [shift_back_business_days, hmem, hlt, hidx]
      omega

/-! ## Basic postconditions of the binary searches (no sortedness needed) -/

lemma getD_mem {l : List ℤ} {j : ℕ} (h : j < l.length) : l.getD j 0 ∈ l := by
  rw [List.getD_eq_getElem l 0 h]
  exact List.getElem_mem h

lemma bsearchGE_ok (bdays : List ℤ) (d : ℤ) :
    ∀ (fuel : ℕ) (lo hi : ℤ) (ans : Option ℤ) (b : ℤ),
    0 ≤ lo → hi < (bdays.length : ℤ) →
    (∀ a, ans = some a → a ∈ bdays ∧ d ≤ a) →
    bsearchGE bdays d fuel lo hi ans = some b → b ∈ bdays ∧ d ≤ b := by
  intro fuel
  induction fuel with
  | zero =>
    intro lo hi ans b _ _ hans hres
    exact hans b hres
  | succ fuel ih =>
    intro lo hi ans b hlo hhi hans hres
    rw [bsearchGE] at hres
    by_cases hlh : lo ≤ hi
    · rw [if_pos hlh] at hres
      dsimp only at hres
      have h1 : lo ≤ (lo + hi) / 2 := by omega
      have h2 : (lo + hi) / 2 ≤ hi := by omega
      have hmlen : ((lo + hi) / 2).toNat < bdays.length := by omega
      by_cases hv : d ≤ bdays.getD ((lo + hi) / 2).toNat 0
      · rw [if_pos hv] at hres
        refine ih lo ((lo + hi) / 2 - 1) _ b hlo (by omega) ?_ hres
        intro a ha
        obtain rfl : bdays.getD ((lo + hi) / 2).toNat 0 = a := Option.some.inj ha
        exact ⟨getD_mem hmlen, hv⟩
      · rw [if_neg hv] at hres
        exact ih ((lo + hi) / 2 + 1) hi _ b (by omega) hhi hans hres
    · rw [if_neg hlh] at hres
      exact hans b hres

lemma bsearchLE_ok (bdays : List ℤ) (d : ℤ) :
    ∀ (fuel : ℕ) (lo hi : ℤ) (ans : Option ℤ) (b : ℤ),
    0 ≤ lo → hi < (bdays.length : ℤ) →
    (∀ a, ans = some a → a ∈ bdays ∧ a ≤ d) →
    bsearchLE bdays d fuel lo hi ans = some b → b ∈ bdays ∧ b ≤ d := by
  intro fuel
  induction fuel with
  | zero =>
    intro lo hi ans b _ _ hans hres
    exact hans b hres
  | succ fuel ih =>
    intro lo hi ans b hlo hhi hans hres
    rw [bsearchLE] at hres
    by_cases hlh : lo ≤ hi
    · rw [if_pos hlh] at hres
      dsimp only at hres
      have h1 : lo ≤ (lo + hi) / 2 := by omega
      have h2 : (lo + hi) / 2 ≤ hi := by omega
      have hmlen : ((lo + hi) / 2).toNat < bdays.length := by omega
      by_cases hv : bdays.getD ((lo + hi) / 2).toNat 0 ≤ d
      · rw [if_pos hv] at hres
        refine ih ((lo + hi) / 2 + 1) hi _ b (by omega) hhi ?_ hres
        intro a ha
        obtain rfl : bdays.getD ((lo + hi) / 2).toNat 0 = a := Option.some.inj ha
        exact ⟨getD_mem hmlen, hv⟩
      · rw [if_neg hv] at hres
        exact ih lo ((lo + hi) / 2 - 1) _ b hlo (by omega) hans hres
    · rw [if_neg hlh] at hres
      exact hans b hres

lemma next_bd_ok {bdays : List ℤ} {d nb : ℤ}
    (h : next_business_day bdays d = .ok nb) : nb ∈ bdays ∧ d ≤ nb := by
  unfold next_business_day at h
  cases hb : bsearchGE bdays d bdays.length 0 ((bdays.length : ℤ) - 1) none with
  | none => rw [hb] at h; exact absurd h (by simp)
  | some a =>
    rw [hb] at h
    obtain rfl : a = nb := Except.ok.inj h
    exact bsearchGE_ok bdays d _ _ _ _ _ (by omega) (by omega) (by simp) hb

lemma prev_bd_ok {bdays : List ℤ} {d b : ℤ}
    (h : previous_business_day bdays d = .ok b) : b ∈ bdays ∧ b ≤ d := by
  unfold previous_business_day at h
  cases hb : bsearchLE bdays d bdays.length 0 ((bdays.length : ℤ) - 1) none with
  | none => rw [hb] at h; exact absurd h (by simp)
  | some a =>
    rw [hb] at h
    obtain rfl : a = b := Except.ok.inj h
    exact bsearchLE_ok bdays d _ _ _ _ _ (by omega) (by omega) (by simp) hb

/-! ## Step inversion, day-count positivity, fuel adequacy -/

lemma accrueStep_ok_inv {series : List (ℤ × ℚ)} {bdays : List ℤ}
    {lb endD cur days : ℤ} {r : ℚ}
    (h : accrueStep series bdays lb endD cur = .ok (days, r)) :
    ∃ b nb obs,
      shift_back_business_days bdays b lb = .ok obs ∧
      days = min (nb - cur) (endD - cur) ∧ r = rateAt series obs ∧
      ((cur ∈ bdays ∧ b = cur ∧ next_business_day bdays (cur + 1) = .ok nb) ∨
       (cur ∉ bdays ∧ previous_business_day bdays cur = .ok b ∧
        next_business_day bdays cur = .ok nb)) := by
  unfold accrueStep at h
  by_cases hmem : cur ∈ bdays
  · rw [if_pos hmem] at h
    cases hnb : next_business_day bdays (cur + 1) with
    | error e => rw [hnb] at h; exact absurd h (by simp)
    | ok nb =>
      rw [hnb] at h
      dsimp only at h
      cases hsh : shift_back_business_days bdays cur lb with
      | error e => rw [hsh] at h; exact absurd h (by simp)
      | ok obs =>
        rw [hsh] at h
        obtain ⟨hd, hr⟩ := Prod.mk.inj (Except.ok.inj h)
        refine ⟨cur, nb, obs, hsh, hd.symm, hr.symm, Or.inl ?_⟩
        exact ⟨hmem, rfl, rfl⟩
  · rw [if_neg hmem] at h
    cases hpb : previous_business_day bdays cur with
    | error e => rw [hpb] at h; exact absurd h (by simp)
    | ok b =>
      rw [hpb] at h
      cases hnb : next_business_day bdays cur with
      | error e => rw [hnb] at h; exact absurd h (by simp)
      | ok nb =>
        rw [hnb] at h
        dsimp only at h
        cases hsh : shift_back_business_days bdays b lb with
        | error e => rw [hsh] at h; exact absurd h (by simp)
        | ok obs =>
          rw [hsh] at h
          obtain ⟨hd, hr⟩ := Prod.mk.inj (Except.ok.inj h)
          refine ⟨b, nb, obs, hsh, hd.symm, hr.symm, Or.inr ?_⟩
          exact ⟨hmem, rfl, rfl⟩

lemma accrueStep_days_pos {series : List (ℤ × ℚ)} {bdays : List ℤ}
    {lb endD cur days : ℤ} {r : ℚ} (hcur : cur < endD)
    (h : accrueStep series bdays lb endD cur = .ok (days, r)) :
    1 ≤ days ∧ days ≤ endD - cur := by
  obtain ⟨b, nb, obs, -, hd, -, hcase⟩ := accrueStep_ok_inv h
  subst hd
  rcases hcase with ⟨hmem, -, hnb⟩ | ⟨hmem, -, hnb⟩
  · obtain ⟨-, hge⟩ := next_bd_ok hnb
    constructor
    · exact le_min (by omega) (by omega)
    · exact min_le_right _ _
  · obtain ⟨hnbmem, hge⟩ := next_bd_ok hnb
    have hne : nb ≠ cur := fun he => hmem (he ▸ hnbmem)
    constructor
    · exact le_min (by omega) (by omega)
    · exact min_le_right _ _

lemma loop_fuel_congr {series : List (ℤ × ℚ)} {bdays : List ℤ}
    {lb endD : ℤ} {N : ℚ} {sonia : Bool} :
    ∀ (f1 f2 : ℕ) (cur : ℤ) (C : ℚ),
    (endD - cur).toNat ≤ f1 → (endD - cur).toNat ≤ f2 →
    accrueLoop series bdays lb endD N sonia f1 cur C
      = accrueLoop series bdays lb endD N sonia f2 cur C := by
  intro f1
  induction f1 with
  | zero =>
    intro f2 cur C h1 h2
    have hcur : ¬ cur < endD := by omega
    rw [loop_done _ _ _ _ _ _ _ _ _ hcur, loop_done _ _ _ _ _ _ _ _ _ hcur]
  | succ f1 ih =>
    intro f2 cur C h1 h2
    by_cases hcur : cur < endD
    · cases f2 with
      | zero => omega
      | succ f2 =>
        cases hstep : accrueStep series bdays lb endD cur with
        | error e => rw [loop_step_err hcur hstep, loop_step_err hcur hstep]
        | ok dr =>
          obtain ⟨days, r⟩ := dr
          obtain ⟨hd1, -⟩ := accrueStep_days_pos hcur hstep
          rw [loop_step_ok hcur hstep, loop_step_ok hcur hstep]
          exact ih f2 (cur + days) _ (by omega) (by omega)
    · rw [loop_done _ _ _ _ _ _ _ _ _ hcur, loop_done _ _ _ _ _ _ _ _ _ hcur]

lemma loop_sonia_grid {series : List (ℤ × ℚ)} {bdays : List ℤ}
    {lb endD : ℤ} {N : ℚ} :
    ∀ (fuel : ℕ) (cur : ℤ) (C Cout : ℚ), cur < endD →
    (endD - cur).toNat ≤ fuel →
    accrueLoop series bdays lb endD N true fuel cur C = .ok Cout →
    ∃ z : ℤ, Cout = (z : ℚ) / 10 ^ 18 := by
  intro fuel
  induction fuel with
  | zero => intro cur C Cout hcur hb; omega
  | succ fuel ih =>
    intro cur C Cout hcur hb hres
    cases hstep : accrueStep series bdays lb endD cur with
    | error e => rw [loop_step_err hcur hstep] at hres; exact absurd hres (by simp)
    | ok dr =>
      obtain ⟨days, r⟩ := dr
      obtain ⟨hd1, -⟩ := accrueStep_days_pos hcur hstep
      rw [loop_step_ok hcur hstep] at hres
      by_cases hcur2 : cur + days < endD
      · exact ih (cur + days) _ Cout hcur2 (by omega) hres
      · rw [loop_done _ _ _ _ _ _ _ _ _ hcur2] at hres
        refine ⟨roundHalfUpInt ((C * (1 + r * (days : ℚ) / N)) * 10 ^ 18), ?_⟩
        rw [← Except.ok.inj hres]
        rfl

/-! ## Claims C2 and C8 -/

/-- C2: under the SONIA-style convention the running factor is re-quantized
to exactly 18 decimal places with round-half-up after every multiplication
(so any factor produced by a SONIA run lies on the 18-decimal grid), while
with the flag off the multiplication is applied with no intermediate
rounding. -/
theorem C2_intermediate_quantization :
    (∀ C f : ℚ, applyFactor true C f = quantizeDec 18 (C * f)) ∧
    (∀ C f : ℚ, applyFactor false C f = C * f) ∧
    (∀ (series : List (ℤ × ℚ)) (bdays : List ℤ) (lb endD : ℤ) (N : ℚ)
      (fuel : ℕ) (cur : ℤ) (C Cout : ℚ), cur < endD →
      (endD - cur).toNat ≤ fuel →
      accrueLoop series bdays lb endD N true fuel cur C = .ok Cout →
      ∃ z : ℤ, Cout = (z : ℚ) / 10 ^ 18) :=
  ⟨fun _ _ => rfl, fun _ _ => rfl,
   fun _ _ _ _ _ fuel cur C Cout hcur hb hres =>
     loop_sonia_grid fuel cur C Cout hcur hb hres⟩

/-- C8: the compounding loop terminates: whenever an iteration from a state
`cur < end` does not raise an error it computes `daysApplied` with
`1 ≤ daysApplied ≤ end - cur` and advances by it, so the fuel
`(end - cur).toNat` supplied by the engine is enough — the loop's value is
independent of any fuel at least that large. -/
theorem C8_loop_terminates :
    (∀ (series : List (ℤ × ℚ)) (bdays : List ℤ) (lb endD cur days : ℤ)
      (r : ℚ), cur < endD →
      accrueStep series bdays lb endD cur = .ok (days, r) →
      1 ≤ days ∧ days ≤ endD - cur) ∧
    (∀ (series : List (ℤ × ℚ)) (bdays : List ℤ) (lb endD : ℤ) (N : ℚ)
      (sonia : Bool) (f1 f2 : ℕ) (cur : ℤ) (C : ℚ),
      (endD - cur).toNat ≤ f1 → (endD - cur).toNat ≤ f2 →
      accrueLoop series bdays lb endD N sonia f1 cur C
        = accrueLoop series bdays lb endD N sonia f2 cur C) :=
  ⟨fun _ _ _ _ _ _ _ hcur hstep => accrueStep_days_pos hcur hstep,
   fun _ _ _ _ _ _ f1 f2 cur C h1 h2 => loop_fuel_congr f1 f2 cur C h1 h2⟩

/-! ## Sorted characterization of the binary searches -/

lemma sorted_getD_le {bdays : List ℤ} (hs : bdays.Sorted (· < ·)) {i j : ℕ}
    (hij : i ≤ j) (hj : j < bdays.length) :
    bdays.getD i 0 ≤ bdays.getD j 0 := by
  rcases lt_or_eq_of_le hij with h | h
  · rw [List.getD_eq_getElem bdays 0 (lt_trans h hj), List.getD_eq_getElem bdays 0 hj]
    exact le_of_lt (List.Sorted.rel_get_of_lt hs (by exact Fin.mk_lt_mk.mpr h))
  · subst h; rfl

lemma mem_getD {bdays : List ℤ} {x : ℤ} (h : x ∈ bdays) :
    ∃ j : ℕ, j < bdays.length ∧ bdays.getD j 0 = x := by
  obtain ⟨⟨j, hj⟩, hget⟩ := List.mem_iff_get.mp h
  exact ⟨j, hj, by rw [List.getD_eq_getElem bdays 0 hj]; exact hget⟩

lemma bsearch_final {bdays : List ℤ} {d lo hi : ℤ} {ans : Option ℤ}
    (hterm : hi < lo)
    (hhigh : ∀ j : ℕ, j < bdays.length → hi < (j : ℤ) → d < bdays.getD j 0)
    (hsome : ∀ a, ans = some a → a ≤ d ∧
      ∃ k : ℕ, k < bdays.length ∧ (k : ℤ) < lo ∧ bdays.getD k 0 = a)
    (hnone : ans = none →
      ∀ j : ℕ, j < bdays.length → (j : ℤ) < lo → d < bdays.getD j 0)
    (hmax : ∀ a, ans = some a → ∀ j : ℕ, j < bdays.length → (j : ℤ) < lo →
      bdays.getD j 0 ≤ a) :
    (ans = none → ∀ j : ℕ, j < bdays.length → d < bdays.getD j 0) ∧
    (∀ b, ans = some b →
      b ∈ bdays ∧ b ≤ d ∧ ∀ x ∈ bdays, x ≤ d → x ≤ b) := by
  constructor
  · intro hres j hj
    rcases lt_or_le (j : ℤ) lo with hc | hc
    · exact hnone hres j hj hc
    · exact hhigh j hj (by omega)
  · intro b hres
    obtain ⟨hble, k, hk, -, hkv⟩ := hsome b hres
    refine ⟨hkv ▸ getD_mem hk, hble, ?_⟩
    intro x hx hxd
    obtain ⟨j, hj, hjv⟩ := mem_getD hx
    rcases lt_or_le (j : ℤ) lo with hc | hc
    · exact hjv ▸ hmax b hres j hj hc
    · exact absurd hxd (by have := hhigh j hj (by omega); omega)

lemma bsearchLE_sorted {bdays : List ℤ} {d : ℤ} (hs : bdays.Sorted (· < ·)) :
    ∀ (fuel : ℕ) (lo hi : ℤ) (ans : Option ℤ),
    0 ≤ lo → hi < (bdays.length : ℤ) → (hi + 1 - lo).toNat ≤ fuel →
    (∀ j : ℕ, j < bdays.length → hi < (j : ℤ) → d < bdays.getD j 0) →
    (∀ a, ans = some a → a ≤ d ∧
      ∃ k : ℕ, k < bdays.length ∧ (k : ℤ) < lo ∧ bdays.getD k 0 = a) →
    (ans = none → ∀ j : ℕ, j < bdays.length → (j : ℤ) < lo → d < bdays.getD j 0) →
    (∀ a, ans = some a → ∀ j : ℕ, j < bdays.length → (j : ℤ) < lo →
      bdays.getD j 0 ≤ a) →
    (bsearchLE bdays d fuel lo hi ans = none →
      ∀ j : ℕ, j < bdays.length → d < bdays.getD j 0) ∧
    (∀ b, bsearchLE bdays d fuel lo hi ans = some b →
      b ∈ bdays ∧ b ≤ d ∧ ∀ x ∈ bdays, x ≤ d → x ≤ b) := by
  intro fuel
  induction fuel with
  | zero =>
    intro lo hi ans hlo hhi hfuel hhigh hsome hnone hmax
    rw [bsearchLE]
    exact bsearch_final (by omega) hhigh hsome hnone hmax
  | succ fuel ih =>
    intro lo hi ans hlo hhi hfuel hhigh hsome hnone hmax
    rw [bsearchLE]
    by_cases hlh : lo ≤ hi
    · rw [if_pos hlh]
      dsimp only
      have h1 : lo ≤ (lo + hi) / 2 := by omega
      have h2 : (lo + hi) / 2 ≤ hi := by omega
      have hmlen : ((lo + hi) / 2).toNat < bdays.length := by omega
      have hmcast : ((((lo + hi) / 2).toNat : ℤ)) = (lo + hi) / 2 := by omega
      by_cases hv : bdays.getD ((lo + hi) / 2).toNat 0 ≤ d
      · rw [if_pos hv]
        refine ih ((lo + hi) / 2 + 1) hi _ (by omega) hhi (by omega) hhigh
          ?_ (by simp) ?_
        · intro a ha
          obtain rfl : bdays.getD ((lo + hi) / 2).toNat 0 = a := Option.some.inj ha
          exact ⟨hv, ((lo + hi) / 2).toNat, hmlen, by omega, rfl⟩
        · intro a ha j hj hjlt
          obtain rfl : bdays.getD ((lo + hi) / 2).toNat 0 = a := Option.some.inj ha
          exact sorted_getD_le hs (by omega) hmlen
      · rw [if_neg hv]
        refine ih lo ((lo + hi) / 2 - 1) ans hlo (by omega) (by omega)
          ?_ hsome hnone hmax
        intro j hj hjlt
        have hle : bdays.getD ((lo + hi) / 2).toNat 0 ≤ bdays.getD j 0 :=
          sorted_getD_le hs (by omega) hj
        omega
    · rw [if_neg hlh]
      exact bsearch_final (by omega) hhigh hsome hnone hmax

lemma bsearch_final_ge {bdays : List ℤ} {d lo hi : ℤ} {ans : Option ℤ}
    (hterm : hi < lo)
    (hlow : ∀ j : ℕ, j < bdays.length → (j : ℤ) < lo → bdays.getD j 0 < d)
    (hsome : ∀ a, ans = some a → d ≤ a ∧
      ∃ k : ℕ, k < bdays.length ∧ hi < (k : ℤ) ∧ bdays.getD k 0 = a)
    (hnone : ans = none →
      ∀ j : ℕ, j < bdays.length → hi < (j : ℤ) → bdays.getD j 0 < d)
    (hmin : ∀ a, ans = some a → ∀ j : ℕ, j < bdays.length → hi < (j : ℤ) →
      a ≤ bdays.getD j 0) :
    (ans = none → ∀ j : ℕ, j < bdays.length → bdays.getD j 0 < d) ∧
    (∀ b, ans = some b →
      b ∈ bdays ∧ d ≤ b ∧ ∀ x ∈ bdays, d ≤ x → b ≤ x) := by
  constructor
  · intro hres j hj
    rcases lt_or_le (j : ℤ) lo with hc | hc
    · exact hlow j hj hc
    · exact hnone hres j hj (by omega)
  · intro b hres
    obtain ⟨hble, k, hk, -, hkv⟩ := hsome b hres
    refine ⟨hkv ▸ getD_mem hk, hble, ?_⟩
    intro x hx hxd
    obtain ⟨j, hj, hjv⟩ := mem_getD hx
    rcases lt_or_le (j : ℤ) lo with hc | hc
    · exact absurd hxd (by have := hlow j hj hc; omega)
    · exact hjv ▸ hmin b hres j hj (by omega)

lemma bsearchGE_sorted {bdays : List ℤ} {d : ℤ} (hs : bdays.Sorted (· < ·)) :
    ∀ (fuel : ℕ) (lo hi : ℤ) (ans : Option ℤ),
    0 ≤ lo → hi < (bdays.length : ℤ) → (hi + 1 - lo).toNat ≤ fuel →
    (∀ j : ℕ, j < bdays.length → (j : ℤ) < lo → bdays.getD j 0 < d) →
    (∀ a, ans = some a → d ≤ a ∧
      ∃ k : ℕ, k < bdays.length ∧ hi < (k : ℤ) ∧ bdays.getD k 0 = a) →
    (ans = none →
      ∀ j : ℕ, j < bdays.length → hi < (j : ℤ) → bdays.getD j 0 < d) →
    (∀ a, ans = some a → ∀ j : ℕ, j < bdays.length → hi < (j : ℤ) →
      a ≤ bdays.getD j 0) →
    (bsearchGE bdays d fuel lo hi ans = none →
      ∀ j : ℕ, j < bdays.length → bdays.getD j 0 < d) ∧
    (∀ b, bsearchGE bdays d fuel lo hi ans = some b →
      b ∈ bdays ∧ d ≤ b ∧ ∀ x ∈ bdays, d ≤ x → b ≤ x) := by
  intro fuel
  induction fuel with
  | zero =>
    intro lo hi ans hlo hhi hfuel hlow hsome hnone hmin
    rw [bsearchGE]
    exact bsearch_final_ge (by omega) hlow hsome hnone hmin
  | succ fuel ih =>
    intro lo hi ans hlo hhi hfuel hlow hsome hnone hmin
    rw [bsearchGE]
    by_cases hlh : lo ≤ hi
    · rw [if_pos hlh]
      dsimp only
      have h1 : lo ≤ (lo + hi) / 2 := by omega
      have h2 : (lo + hi) / 2 ≤ hi := by omega
      have hmlen : ((lo + hi) / 2).toNat < bdays.length := by omega
      by_cases hv : d ≤ bdays.getD ((lo + hi) / 2).toNat 0
      · rw [if_pos hv]
        refine ih lo ((lo + hi) / 2 - 1) _ hlo (by omega) (by omega) hlow
          ?_ (by simp) ?_
        · intro a ha
          obtain rfl : bdays.getD ((lo + hi) / 2).toNat 0 = a := Option.some.inj ha
          exact ⟨hv, ((lo + hi) / 2).toNat, hmlen, by omega, rfl⟩
        · intro a ha j hj hjlt
          obtain rfl : bdays.getD ((lo + hi) / 2).toNat 0 = a := Option.some.inj ha
          exact sorted_getD_le hs (by omega) hj
      · rw [if_neg hv]
        refine ih ((lo + hi) / 2 + 1) hi ans (by omega) hhi (by omega)
          ?_ hsome hnone hmin
        intro j hj hjlt
        have hle : bdays.getD j 0 ≤ bdays.getD ((lo + hi) / 2).toNat 0 :=
          sorted_getD_le hs (by omega) hmlen
        omega
    · rw [if_neg hlh]
      exact bsearch_final_ge (by omega) hlow hsome hnone hmin

/-- Full characterization of `previous_business_day` on a sorted calendar. -/
lemma prev_bd_sorted {bdays : List ℤ} {d : ℤ} (hs : bdays.Sorted (· < ·)) :
    (previous_business_day bdays d = .error .noBusinessDay →
      ∀ x ∈ bdays, d < x) ∧
    (∀ b, previous_business_day bdays d = .ok b →
      b ∈ bdays ∧ b ≤ d ∧ ∀ x ∈ bdays, x ≤ d → x ≤ b) := by
  have hmain := @bsearchLE_sorted bdays d hs bdays.length 0 ((bdays.length : ℤ) - 1) none
    (by omega) (by omega) (by omega) (by intro j hj hjlt; omega)
    (by simp) (by intro _ j hj hjlt; omega) (by simp)
  constructor
  · intro h x hx
    unfold previous_business_day at h
    cases hb : bsearchLE bdays d bdays.length 0 ((bdays.length : ℤ) - 1) none with
    | none =>
      obtain ⟨j, hj, hjv⟩ := mem_getD hx
      exact hjv ▸ hmain.1 hb j hj
    | some a => rw [hb] at h; exact absurd h (by simp)
  · intro b h
    unfold previous_business_day at h
    cases hb : bsearchLE bdays d bdays.length 0 ((bdays.length : ℤ) - 1) none with
    | none => rw [hb] at h; exact absurd h (by simp)
    | some a =>
      rw [hb] at h
      obtain rfl : a = b := Except.ok.inj h
      exact hmain.2 _ hb

/-- Full characterization of `next_business_day` on a sorted calendar. -/
lemma next_bd_sorted {bdays : List ℤ} {d : ℤ} (hs : bdays.Sorted (· < ·)) :
    (next_business_day bdays d = .error .noBusinessDay →
      ∀ x ∈ bdays, x < d) ∧
    (∀ b, next_business_day bdays d = .ok b →
      b ∈ bdays ∧ d ≤ b ∧ ∀ x ∈ bdays, d ≤ x → b ≤ x) := by
  have hmain := @bsearchGE_sorted bdays d hs bdays.length 0 ((bdays.length : ℤ) - 1) none
    (by omega) (by omega) (by omega) (by intro j hj hjlt; omega)
    (by simp) (by intro _ j hj hjlt; omega) (by simp)
  constructor
  · intro h x hx
    unfold next_business_day at h
    cases hb : bsearchGE bdays d bdays.length 0 ((bdays.length : ℤ) - 1) none with
    | none =>
      obtain ⟨j, hj, hjv⟩ := mem_getD hx
      exact hjv ▸ hmain.1 hb j hj
    | some a => rw [hb] at h; exact absurd h (by simp)
  · intro b h
    unfold next_business_day at h
    cases hb : bsearchGE bdays d bdays.length 0 ((bdays.length : ℤ) - 1) none with
    | none => rw [hb] at h; exact absurd h (by simp)
    | some a =>
      rw [hb] at h
      obtain rfl : a = b := Except.ok.inj h
      exact hmain.2 _ hb

/-! ## Machinery for C9: the run always fails past the last supplied rate -/

lemma prev_error_shape {bdays : List ℤ} {d : ℤ} {e : CalcError}
    (h : previous_business_day bdays d = .error e) : e = .noBusinessDay := by
  unfold previous_business_day at h
  cases hb : bsearchLE bdays d bdays.length 0 ((bdays.length : ℤ) - 1) none with
  | none => rw [hb] at h; exact (Except.error.inj h).symm
  | some a => rw [hb] at h; exact absurd h (by simp)

lemma next_error_shape {bdays : List ℤ} {d : ℤ} {e : CalcError}
    (h : next_business_day bdays d = .error e) : e = .noBusinessDay := by
  unfold next_business_day at h
  cases hb : bsearchGE bdays d bdays.length 0 ((bdays.length : ℤ) - 1) none with
  | none => rw [hb] at h; exact (Except.error.inj h).symm
  | some a => rw [hb] at h; exact absurd h (by simp)

lemma indexOf_mono {l : List ℤ} (hs : l.Sorted (· < ·)) {a b : ℤ}
    (ha : a ∈ l) (hb : b ∈ l) (hab : a ≤ b) : l.indexOf a ≤ l.indexOf b := by
  by_contra hcon
  push_neg at hcon
  have h1 := List.indexOf_get (List.indexOf_lt_length.2 ha)
  have h2 := List.indexOf_get (List.indexOf_lt_length.2 hb)
  have h3 := List.Sorted.rel_get_of_lt hs
    (a := (⟨l.indexOf b, List.indexOf_lt_length.2 hb⟩ : Fin l.length))
    (b := (⟨l.indexOf a, List.indexOf_lt_length.2 ha⟩ : Fin l.length))
    (Fin.mk_lt_mk.mpr hcon)
  rw [h1, h2] at h3
  omega

lemma shift_ok_inv {bdays : List ℤ} {d n q : ℤ}
    (h : shift_back_business_days bdays d n = .ok q) :
    d ∈ bdays ∧ 0 ≤ (bdays.indexOf d : ℤ) - n ∧
      q = bdays.getD ((bdays.indexOf d : ℤ) - n).toNat 0 := by
  unfold shift_back_business_days at h
  by_cases hd : d ∈ bdays
  · rw [if_pos hd] at h
    dsimp only at h
    by_cases hi : (bdays.indexOf d : ℤ) - n < 0
    · rw [if_pos hi] at h; exact absurd h (by simp)
    · rw [if_neg hi] at h
      exact ⟨hd, by omega, (Except.ok.inj h).symm⟩
  · rw [if_neg hd] at h; exact absurd h (by simp)

lemma shift_ok_of_ge {bdays : List ℤ} (hs : bdays.Sorted (· < ·)) {p0 b lb : ℤ}
    (h0 : p0 ∈ bdays) (hsh : 0 ≤ (bdays.indexOf p0 : ℤ) - lb)
    (hb : b ∈ bdays) (hle : p0 ≤ b) :
    shift_back_business_days bdays b lb
      = .ok (bdays.getD ((bdays.indexOf b : ℤ) - lb).toNat 0) := by
  have hmono := indexOf_mono hs h0 hb hle
  have hge : ¬ ((bdays.indexOf b : ℤ) - lb < 0) := by omega
  simp [shift_back_business_days, hb, hge]

lemma loop_no_bd {series : List (ℤ × ℚ)} {bdays : List ℤ}
    {lb endD start p0 : ℤ} {N : ℚ} {sonia : Bool}
    (hs : bdays.Sorted (· < ·))
    (hp0mem : p0 ∈ bdays) (hp0le : p0 ≤ start)
    (hshift : 0 ≤ (bdays.indexOf p0 : ℤ) - lb)
    (hall : ∀ x ∈ bdays, x < endD) :
    ∀ (fuel : ℕ) (cur : ℤ) (C : ℚ), (endD - cur).toNat ≤ fuel →
    start ≤ cur → cur < endD →
    accrueLoop series bdays lb endD N sonia fuel cur C
      = .error .noBusinessDay := by
  intro fuel
  induction fuel with
  | zero => intro cur C hb hsc hce; omega
  | succ fuel ih =>
    intro cur C hb hsc hce
    by_cases hmem : cur ∈ bdays
    · cases hnb : next_business_day bdays (cur + 1) with
      | error e =>
        obtain rfl := next_error_shape hnb
        exact loop_step_err hce (by simp [accrueStep, hmem, hnb])
      | ok nb =>
        obtain ⟨hnbmem, hnbge, -⟩ := (next_bd_sorted hs).2 nb hnb
        have hnblt : nb < endD := hall nb hnbmem
        have hobs := shift_ok_of_ge hs hp0mem hshift hmem (by omega)
        have hstep : accrueStep series bdays lb endD cur
            = .ok (min (nb - cur) (endD - cur),
                rateAt series (bdays.getD ((bdays.indexOf cur : ℤ) - lb).toNat 0)) := by
          simp [accrueStep, hmem, hnb, hobs]
        rw [loop_step_ok hce hstep]
        have hmin : min (nb - cur) (endD - cur) = nb - cur := min_eq_left (by omega)
        rw [hmin, show cur + (nb - cur) = nb by ring]
        exact ih nb _ (by omega) (by omega) hnblt
    · cases hpb : previous_business_day bdays cur with
      | error e =>
        exfalso
        obtain rfl := prev_error_shape hpb
        exact absurd ((prev_bd_sorted hs).1 hpb p0 hp0mem) (by omega)
      | ok b =>
        obtain ⟨hbmem, hble, hbmax⟩ := (prev_bd_sorted hs).2 b hpb
        cases hnb : next_business_day bdays cur with
        | error e =>
          obtain rfl := next_error_shape hnb
          exact loop_step_err hce (by simp [accrueStep, hmem, hpb, hnb])
        | ok nb =>
          obtain ⟨hnbmem, hnbge, -⟩ := (next_bd_sorted hs).2 nb hnb
          have hnblt : nb < endD := hall nb hnbmem
          have hnbne : nb ≠ cur := fun hh => hmem (hh ▸ hnbmem)
          have hp0b : p0 ≤ b := hbmax p0 hp0mem (by omega)
          have hobs := shift_ok_of_ge hs hp0mem hshift hbmem hp0b
          have hstep : accrueStep series bdays lb endD cur
              = .ok (min (nb - cur) (endD - cur),
                  rateAt series (bdays.getD ((bdays.indexOf b : ℤ) - lb).toNat 0)) := by
            simp [accrueStep, hmem, hpb, hnb, hobs]
          rw [loop_step_ok hce hstep]
          have hmin : min (nb - cur) (endD - cur) = nb - cur := min_eq_left (by omega)
          rw [hmin, show cur + (nb - cur) = nb by ring]
          exact ih nb _ (by omega) (by omega) hnblt

/-- C9: for an otherwise-valid request (validation and the lookback pre-check
pass) whose end date is strictly later than every date in the rate series,
the engine raises `NoBusinessDay` from the next-business-day lookup and
returns no result. -/
theorem C9_end_past_last_rate {P : ℚ} {start endD lb : ℤ}
    {series : List (ℤ × ℚ)} {basis : ℤ} {m cas : ℚ} {chg : Option ℤ}
    {mA : Option ℚ} {sonia : Bool} {p0 q0 : ℤ}
    (hs : SortedKeys series) (hlb : 1 ≤ lb) (hse : start < endD)
    (hall : ∀ b ∈ series.map Prod.fst, b < endD)
    (hne : series.map Prod.fst ≠ [])
    (hprev : previous_business_day (series.map Prod.fst) start = .ok p0)
    (hshift : shift_back_business_days (series.map Prod.fst) p0 lb = .ok q0) :
    compute_interest_compounded_in_arrears P start endD lb series basis m cas
      chg mA sonia = .error .noBusinessDay := by
  obtain ⟨hp0mem, hp0le, -⟩ := (prev_bd_sorted hs).2 p0 hprev
  obtain ⟨-, hidx, -⟩ := shift_ok_inv hshift
  have hloop := @loop_no_bd series (series.map Prod.fst) lb endD start p0
    ((basis : ℤ) : ℚ) sonia hs hp0mem hp0le hidx hall
    (endD - start).toNat start 1 le_rfl le_rfl hse
  unfold compute_interest_compounded_in_arrears
  rw [if_neg (by omega : ¬ lb < 1), if_neg (not_le.mpr hse)]
  dsimp only
  rw [if_neg (by simpa [List.isEmpty_iff] using hne), hprev]
  dsimp only
  rw [hshift]
  dsimp only
  rw [hloop]

/-! ## Machinery for C1: the spec-side run decomposition matches the code -/

lemma int_max?_eq_some {l : List ℤ} {a : ℤ} (ha : a ∈ l)
    (hall : ∀ x ∈ l, x ≤ a) : l.max? = some a := by
  have inst : Std.Antisymm (α := ℤ) (· ≤ ·) := ⟨fun h h' => le_antisymm h h'⟩
  rw [List.max?_eq_some_iff]
  · exact ⟨ha, hall⟩
  · exact fun x => le_refl x
  · exact fun x y => max_choice x y
  · exact fun x y z => max_le_iff

lemma int_min?_eq_some {l : List ℤ} {a : ℤ} (ha : a ∈ l)
    (hall : ∀ x ∈ l, a ≤ x) : l.min? = some a := by
  have inst : Std.Antisymm (α := ℤ) (· ≤ ·) := ⟨fun h h' => le_antisymm h h'⟩
  rw [List.min?_eq_some_iff]
  · exact ⟨ha, hall⟩
  · exact fun x => le_refl x
  · exact fun x y => min_choice x y
  · exact fun x y z => le_min_iff

lemma loop_spec_bridge {series : List (ℤ × ℚ)} {lb endD : ℤ} {N : ℚ}
    {sonia : Bool} (hs : SortedKeys series) :
    ∀ (fuel : ℕ) (cur : ℤ) (C Cout : ℚ),
    accrueLoop series (series.map Prod.fst) lb endD N sonia fuel cur C
      = .ok Cout →
    specGrowth series lb endD N sonia fuel cur C = some Cout := by
  have hsb : (series.map Prod.fst).Sorted (· < ·) := hs
  intro fuel
  induction fuel with
  | zero =>
    intro cur C Cout hres
    rw [accrueLoop] at hres
    rw [specGrowth]
    exact congrArg some (Except.ok.inj hres)
  | succ fuel ih =>
    intro cur C Cout hres
    by_cases hcur : cur < endD
    · cases hstep : accrueStep series (series.map Prod.fst) lb endD cur with
      | error e =>
        rw [loop_step_err hcur hstep] at hres
        exact absurd hres (by simp)
      | ok dr =>
        obtain ⟨days, r⟩ := dr
        rw [loop_step_ok hcur hstep] at hres
        obtain ⟨b, nb, obs, hsh, hdays, hr, hcase⟩ := accrueStep_ok_inv hstep
        obtain ⟨hbmem', hidx, hval⟩ := shift_ok_inv hsh
        subst hdays hr hval
        have happ : specApplicable (series.map Prod.fst) cur = some (b, nb) := by
          rcases hcase with ⟨hmem, hbeq, hnb⟩ | ⟨hmem, hpb, hnb⟩
          · subst hbeq
            obtain ⟨hnbmem, hnbge, hnbmin⟩ := (next_bd_sorted hsb).2 nb hnb
            have hmin :
                ((series.map Prod.fst).filter (fun x => b < x)).min? = some nb := by
              apply int_min?_eq_some
              · exact List.mem_filter.mpr
                  ⟨hnbmem, by simpa using (by omega : b < nb)⟩
              · intro x hx
                obtain ⟨hx1, hx2⟩ := List.mem_filter.mp hx
                have : b < x := by simpa using hx2
                exact hnbmin x hx1 (by omega)
            rw [specApplicable, if_pos hmem, hmin]
          · obtain ⟨hbmem, hble, hbmax⟩ := (prev_bd_sorted hsb).2 b hpb
            obtain ⟨hnbmem, hnbge, hnbmin⟩ := (next_bd_sorted hsb).2 nb hnb
            have hmax :
                ((series.map Prod.fst).filter (fun x => x ≤ cur)).max? = some b := by
              apply int_max?_eq_some
              · exact List.mem_filter.mpr ⟨hbmem, by simpa using hble⟩
              · intro x hx
                obtain ⟨hx1, hx2⟩ := List.mem_filter.mp hx
                exact hbmax x hx1 (by simpa using hx2)
            have hmin :
                ((series.map Prod.fst).filter (fun x => cur ≤ x)).min? = some nb := by
              apply int_min?_eq_some
              · exact List.mem_filter.mpr ⟨hnbmem, by simpa using hnbge⟩
              · intro x hx
                obtain ⟨hx1, hx2⟩ := List.mem_filter.mp hx
                exact hnbmin x hx1 (by simpa using hx2)
            rw [specApplicable, if_neg hmem, hmax, hmin]
        rw [specGrowth, if_pos hcur]
        dsimp only
        rw [happ]
        dsimp only
        rw [if_neg (by omega :
          ¬ ((series.map Prod.fst).indexOf b : ℤ) - lb < 0)]
        exact ih _ _ _ hres
    · rw [loop_done _ _ _ _ _ _ _ _ _ hcur] at hres
      rw [specGrowth, if_neg hcur]
      exact congrArg some (Except.ok.inj hres)

/-- C1 (amended): whenever the engine returns a result on a sorted rate
series, its final growth factor is exactly the value of the spec's run
decomposition — the product over successive runs of
`1 + r * daysApplied / basis` with the applicable/bounding business days,
end clipping and lookback shift as described, with the product re-quantized
to 18 decimal places after each multiplication exactly when the SONIA
convention is selected (and hence the plain product when it is not). -/
theorem C1_growth_factor {P : ℚ} {start endD lb : ℤ} {series : List (ℤ × ℚ)}
    {basis : ℤ} {m cas : ℚ} {chg : Option ℤ} {mA : Option ℚ} {sonia : Bool}
    {res : AccrualResult} (hs : SortedKeys series)
    (h : compute_interest_compounded_in_arrears P start endD lb series basis
      m cas chg mA sonia = .ok res) :
    specGrowth series lb endD (basis : ℚ) sonia (endD - start).toNat start 1
      = some res.compounded_factor := by
  obtain ⟨-, -, -, p0, q0, C, -, -, hloop, hres⟩ := compute_ok_inv h
  subst hres
  exact loop_spec_bridge hs (endD - start).toNat start 1 C hloop

/-! ## Machinery for C10: monotonicity in the rate series -/

lemma roundHalfUpInt_mono {x y : ℚ} (h : x ≤ y) :
    roundHalfUpInt x ≤ roundHalfUpInt y := by
  unfold roundHalfUpInt
  by_cases hx : 0 ≤ x
  · rw [if_pos hx, if_pos (le_trans hx h)]
    exact Int.floor_le_floor (by linarith)
  · rw [if_neg hx]
    by_cases hy : 0 ≤ y
    · rw [if_pos hy]
      have h1 : (0:ℤ) ≤ ⌊-x + 1/2⌋ := Int.floor_nonneg.mpr (by push_neg at hx; linarith)
      have h2 : (0:ℤ) ≤ ⌊y + 1/2⌋ := Int.floor_nonneg.mpr (by linarith)
      omega
    · rw [if_neg hy]
      have h3 : ⌊-y + 1/2⌋ ≤ ⌊-x + 1/2⌋ := Int.floor_le_floor (by linarith)
      omega

lemma roundHalfUpInt_nonneg {x : ℚ} (h : 0 ≤ x) : 0 ≤ roundHalfUpInt x := by
  unfold roundHalfUpInt
  rw [if_pos h]
  exact Int.floor_nonneg.mpr (by linarith)

lemma quantizeDec_mono (k : ℕ) {x y : ℚ} (h : x ≤ y) :
    quantizeDec k x ≤ quantizeDec k y := by
  unfold quantizeDec
  have h10 : (0:ℚ) < 10 ^ k := by positivity
  have hm := roundHalfUpInt_mono
    (mul_le_mul_of_nonneg_right h (le_of_lt h10) : x * 10 ^ k ≤ y * 10 ^ k)
  exact (div_le_div_iff_of_pos_right h10).mpr (by exact_mod_cast hm)

lemma quantizeDec_nonneg (k : ℕ) {x : ℚ} (h : 0 ≤ x) : 0 ≤ quantizeDec k x := by
  unfold quantizeDec
  have := roundHalfUpInt_nonneg (mul_nonneg h (by positivity : (0:ℚ) ≤ 10 ^ k))
  exact div_nonneg (by exact_mod_cast this) (by positivity)

lemma applyFactor_mono {sonia : Bool} {C C' f f' : ℚ} (hC : C ≤ C')
    (hf : f ≤ f') (h0C : 0 ≤ C) (h0f : 0 ≤ f) :
    applyFactor sonia C f ≤ applyFactor sonia C' f'
      ∧ 0 ≤ applyFactor sonia C f := by
  have hmul : C * f ≤ C' * f' := mul_le_mul hC hf h0f (le_trans h0C hC)
  have h0 : 0 ≤ C * f := mul_nonneg h0C h0f
  cases sonia with
  | true => exact ⟨quantizeDec_mono 18 hmul, quantizeDec_nonneg 18 h0⟩
  | false => exact ⟨hmul, h0⟩

lemma rateAt_le_of_pointwise :
    ∀ (series series' : List (ℤ × ℚ)),
    series.map Prod.fst = series'.map Prod.fst →
    (∀ i : ℕ, ∀ h : i < series.length, ∀ h' : i < series'.length,
      (series.get ⟨i, h⟩).2 ≤ (series'.get ⟨i, h'⟩).2) →
    ∀ d, rateAt series d ≤ rateAt series' d := by
  intro series
  induction series with
  | nil =>
    intro series' hkeys hval d
    cases series' with
    | nil => exact le_refl _
    | cons p s' => simp at hkeys
  | cons p s ih =>
    intro series' hkeys hval d
    cases series' with
    | nil => simp at hkeys
    | cons p' s' =>
      obtain ⟨hk, hks⟩ : p.1 = p'.1 ∧ s.map Prod.fst = s'.map Prod.fst := by
        simpa using hkeys
      by_cases hd : d = p.1
      · have h0 := hval 0 (by simp) (by simp)
        simp only [List.get] at h0
        simp [rateAt, List.lookup, hd, hk, h0]
      · have hd' : d ≠ p'.1 := hk ▸ hd
        have hrec := ih s' hks
          (fun i h h' => by
            have := hval (i + 1) (by simpa using h) (by simpa using h')
            simpa using this) d
        simpa [rateAt, List.lookup, beq_false_of_ne hd, beq_false_of_ne hd']
          using hrec

lemma rateAt_nonneg : ∀ (series : List (ℤ × ℚ)),
    (∀ p ∈ series, 0 ≤ p.2) → ∀ d, 0 ≤ rateAt series d := by
  intro series
  induction series with
  | nil => intro _ d; simp [rateAt, List.lookup]
  | cons p s ih =>
    intro hpos d
    by_cases hd : d = p.1
    · simpa [rateAt, List.lookup, hd] using hpos p (by simp)
    · simpa [rateAt, List.lookup, beq_false_of_ne hd]
        using ih (fun q hq => hpos q (by simp [hq])) d

lemma accrueStep_series_indep {series series' : List (ℤ × ℚ)} {bdays : List ℤ}
    {lb endD cur days : ℤ} {r : ℚ}
    (h : accrueStep series bdays lb endD cur = .ok (days, r)) :
    ∃ obs, r = rateAt series obs ∧
      accrueStep series' bdays lb endD cur = .ok (days, rateAt series' obs) := by
  unfold accrueStep at h ⊢
  by_cases hmem : cur ∈ bdays
  · rw [if_pos hmem] at h ⊢
    cases hnb : next_business_day bdays (cur + 1) with
    | error e => rw [hnb] at h; exact absurd h (by simp)
    | ok nb =>
      rw [hnb] at h
      dsimp only at h ⊢
      cases hsh : shift_back_business_days bdays cur lb with
      | error e => rw [hsh] at h; exact absurd h (by simp)
      | ok obs =>
        rw [hsh] at h
        obtain ⟨hd, hr⟩ := Prod.mk.inj (Except.ok.inj h)
        exact ⟨obs, hr.symm, by rw [hd]⟩
  · rw [if_neg hmem] at h ⊢
    cases hpb : previous_business_day bdays cur with
    | error e => rw [hpb] at h; exact absurd h (by simp)
    | ok b =>
      rw [hpb] at h
      dsimp only at h ⊢
      cases hnb : next_business_day bdays cur with
      | error e => rw [hnb] at h; exact absurd h (by simp)
      | ok nb =>
        rw [hnb] at h
        dsimp only at h ⊢
        cases hsh : shift_back_business_days bdays b lb with
        | error e => rw [hsh] at h; exact absurd h (by simp)
        | ok obs =>
          rw [hsh] at h
          obtain ⟨hd, hr⟩ := Prod.mk.inj (Except.ok.inj h)
          exact ⟨obs, hr.symm, by rw [hd]⟩

lemma loop_mono {series series' : List (ℤ × ℚ)} {bdays : List ℤ}
    {lb endD : ℤ} {N : ℚ} {sonia : Bool}
    (hrle : ∀ d, rateAt series d ≤ rateAt series' d)
    (hr0 : ∀ d, 0 ≤ rateAt series d) (hN : 0 < N) :
    ∀ (fuel : ℕ) (cur : ℤ) (C C' Cout Cout' : ℚ), C ≤ C' → 0 ≤ C →
    accrueLoop series bdays lb endD N sonia fuel cur C = .ok Cout →
    accrueLoop series' bdays lb endD N sonia fuel cur C' = .ok Cout' →
    Cout ≤ Cout' ∧ 0 ≤ Cout := by
  intro fuel
  induction fuel with
  | zero =>
    intro cur C C' Cout Cout' hC h0 hres hres'
    rw [accrueLoop] at hres hres'
    obtain rfl : C = Cout := Except.ok.inj hres
    obtain rfl : C' = Cout' := Except.ok.inj hres'
    exact ⟨hC, h0⟩
  | succ fuel ih =>
    intro cur C C' Cout Cout' hC h0 hres hres'
    by_cases hcur : cur < endD
    · cases hstep : accrueStep series bdays lb endD cur with
      | error e => rw [loop_step_err hcur hstep] at hres; exact absurd hres (by simp)
      | ok dr =>
        obtain ⟨days, r⟩ := dr
        obtain ⟨obs, hr, hstep'⟩ := accrueStep_series_indep hstep
        subst hr
        obtain ⟨hd1, -⟩ := accrueStep_days_pos hcur hstep
        rw [loop_step_ok hcur hstep] at hres
        rw [loop_step_ok hcur hstep'] at hres'
        have hdays0 : (0:ℚ) ≤ (days : ℚ) := by exact_mod_cast (by omega : (0:ℤ) ≤ days)
        have hquot0 : 0 ≤ rateAt series obs * (days : ℚ) / N :=
          div_nonneg (mul_nonneg (hr0 obs) hdays0) (le_of_lt hN)
        have hf0 : (0:ℚ) ≤ 1 + rateAt series obs * (days : ℚ) / N := by linarith
        have hff : 1 + rateAt series obs * (days : ℚ) / N
            ≤ 1 + rateAt series' obs * (days : ℚ) / N := by
          have hnum := mul_le_mul_of_nonneg_right (hrle obs) hdays0
          have hdiv := (div_le_div_iff_of_pos_right hN).mpr hnum
          linarith
        obtain ⟨hm1, hm2⟩ := applyFactor_mono hC hff h0 hf0
        exact ih _ _ _ _ _ hm1 hm2 hres hres'
    · rw [loop_done _ _ _ _ _ _ _ _ _ hcur] at hres hres'
      obtain rfl : C = Cout := Except.ok.inj hres
      obtain rfl : C' = Cout' := Except.ok.inj hres'
      exact ⟨hC, h0⟩

/-- C10 (amended): with all rates of the original series nonnegative (and a
nonnegative principal and positive basis), increasing the rate at one single
date of the series while keeping every other input fixed does not decrease
the reported reference-rate interest. -/
theorem C10_rate_monotonicity {P : ℚ} {start endD lb : ℤ}
    {series series' : List (ℤ × ℚ)} {basis : ℤ} {m cas : ℚ} {chg : Option ℤ}
    {mA : Option ℚ} {sonia : Bool} {res res' : AccrualResult} {i0 : ℕ}
    (hkeys : series.map Prod.fst = series'.map Prod.fst)
    (hinc : ∀ h : i0 < series.length, ∀ h' : i0 < series'.length,
      (series.get ⟨i0, h⟩).2 ≤ (series'.get ⟨i0, h'⟩).2)
    (hoth : ∀ i : ℕ, ∀ h : i < series.length, ∀ h' : i < series'.length,
      i ≠ i0 → (series.get ⟨i, h⟩).2 = (series'.get ⟨i, h'⟩).2)
    (hpos : ∀ p ∈ series, 0 ≤ p.2) (hP : 0 ≤ P) (hbasis : 0 < basis)
    (h : compute_interest_compounded_in_arrears P start endD lb series basis
      m cas chg mA sonia = .ok res)
    (h' : compute_interest_compounded_in_arrears P start endD lb series' basis
      m cas chg mA sonia = .ok res') :
    res.interest_rfr ≤ res'.interest_rfr := by
  obtain ⟨-, -, -, p0, q0, C, -, -, hloop, hres⟩ := compute_ok_inv h
  obtain ⟨-, -, -, p0', q0', C', -, -, hloop', hres'⟩ := compute_ok_inv h'
  subst hres hres'
  rw [← hkeys] at hloop'
  have hval : ∀ i : ℕ, ∀ hh : i < series.length, ∀ hh' : i < series'.length,
      (series.get ⟨i, hh⟩).2 ≤ (series'.get ⟨i, hh'⟩).2 := by
    intro i hh hh'
    by_cases hi : i = i0
    · subst hi; exact hinc hh hh'
    · exact le_of_eq (hoth i hh hh' hi)
  have hrle := rateAt_le_of_pointwise series series' hkeys hval
  have hr0 := rateAt_nonneg series hpos
  have hN : (0:ℚ) < (basis : ℚ) := by exact_mod_cast hbasis
  obtain ⟨hCC', -⟩ := loop_mono hrle hr0 hN (endD - start).toNat start 1 1 C C'
    le_rfl zero_le_one hloop hloop'
  show quantize_money ((C - 1) * P) ≤ quantize_money ((C' - 1) * P)
  exact quantizeDec_mono 2 (mul_le_mul_of_nonneg_right (by linarith) hP)

/-! ## Counterexamples, and witnesses for the claim theorems -/

lemma lookup_cons_int {k : ℤ} {v : ℚ} {es : List (ℤ × ℚ)} (a : ℤ) :
    List.lookup a ((k, v) :: es) = if a = k then some v else List.lookup a es := by
  by_cases h : a = k
  · subst h; simp [List.lookup_cons]
  · simp [List.lookup_cons, beq_false_of_ne h, h]

lemma lookup_nil_rat (a : ℤ) : List.lookup a ([] : List (ℤ × ℚ)) = none := rfl

/-- Refutation of C1 as stated: on a SONIA-convention request the engine
returns a final factor that differs from the exact product of the run
factors (here one run: `1 + (1/20) * 1 / 365 = 7301/7300`, whose value the
spec-side decomposition without intermediate rounding computes), because the
running factor is re-quantized to 18 decimal places. -/
theorem C1_counterexample :
    (compute_interest_compounded_in_arrears 1 1 2 1
        [(0, 1/20), (1, 1/20), (2, 1/20)] 365 0 0 none none true).map
      (fun r => r.compounded_factor)
      = .ok (1000136986301369863 / 10 ^ 18) ∧
    specGrowth [(0, 1/20), (1, 1/20), (2, 1/20)] 1 2 365 false 1 1 1
      = some (7301 / 7300) ∧
    (1000136986301369863 / 10 ^ 18 : ℚ) ≠ 7301 / 7300 := by
  refine ⟨?_, ?_, by norm_num⟩
  · norm_num +decide [compute_interest_compounded_in_arrears, accrueLoop,
      accrueStep, previous_business_day, next_business_day,
      shift_back_business_days, bsearchLE, bsearchGE, rateAt, applyFactor,
      assembleResult, marginSplit, quantizeDec, roundHalfUpInt, quantize_money,
      List.getD, List.get?, List.indexOf, List.findIdx, List.findIdx.go,
      lookup_cons_int, lookup_nil_rat, Int.toNat_ofNat, Except.map,
    -Prod.mk_zero_zero, -Prod.mk_one_one]
  · norm_num +decide [specGrowth, specApplicable, rateAt, applyFactor,
      List.filter, List.min?, List.max?, List.foldl, List.getD, List.get?,
      List.indexOf, List.findIdx, List.findIdx.go, lookup_cons_int,
      lookup_nil_rat, Int.toNat_ofNat, -Prod.mk_zero_zero, -Prod.mk_one_one]

/-- Refutation of C5 as stated: a post-change margin value supplied without
a change date IS reported as the post-segment margin (2%), which differs
from the pre-segment margin (1%). -/
theorem C5_counterexample :
    (compute_interest_compounded_in_arrears 1 1 2 1
        [(0, 1/20), (1, 1/20), (2, 1/20)] 365 (1/100) 0 none
        (some (2/100)) false).map (fun r => (r.margin_pre, r.margin_post))
      = .ok (1/100, 2/100) ∧
    (1/100 : ℚ) ≠ 2/100 := by
  refine ⟨?_, by norm_num⟩
  norm_num +decide [compute_interest_compounded_in_arrears, accrueLoop,
    accrueStep, previous_business_day, next_business_day,
    shift_back_business_days, bsearchLE, bsearchGE, rateAt, applyFactor,
    assembleResult, marginSplit, quantizeDec, roundHalfUpInt, quantize_money,
    List.getD, List.get?, List.indexOf, List.findIdx, List.findIdx.go,
    lookup_cons_int, lookup_nil_rat, Int.toNat_ofNat, Except.map,
    -Prod.mk_zero_zero, -Prod.mk_one_one]

/-- Refutation of C10 as stated: with a (negative) rate elsewhere in the
series, increasing the single rate at date 0 from 0 to 1 makes the reported
reference interest strictly smaller (−3.01 < −3), because a negative period
factor reverses the ordering under multiplication. -/
theorem C10_counterexample :
    (compute_interest_compounded_in_arrears 1 1 3 1
        [(0, 0), (1, -1080), (2, 0), (3, 0)] 360 0 0 none none false).map
      (fun r => r.interest_rfr) = .ok (-3) ∧
    (compute_interest_compounded_in_arrears 1 1 3 1
        [(0, 1), (1, -1080), (2, 0), (3, 0)] 360 0 0 none none false).map
      (fun r => r.interest_rfr) = .ok (-301/100) ∧
    (-301/100 : ℚ) < -3 := by
  refine ⟨?_, ?_, by norm_num⟩ <;>
  norm_num +decide [compute_interest_compounded_in_arrears, accrueLoop,
    accrueStep, previous_business_day, next_business_day,
    shift_back_business_days, bsearchLE, bsearchGE, rateAt, applyFactor,
    assembleResult, marginSplit, quantizeDec, roundHalfUpInt, quantize_money,
    List.getD, List.get?, List.indexOf, List.findIdx, List.findIdx.go,
    lookup_cons_int, lookup_nil_rat, Int.toNat_ofNat, Except.map,
    -Prod.mk_zero_zero, -Prod.mk_one_one]

theorem C1_witness :
    specGrowth [(0, 1/20), (1, 1/20), (2, 1/20)] 1 2 ((365 : ℤ) : ℚ) false
      ((2 : ℤ) - 1).toNat 1 1 = some (7301/7300) := by
  have hmap : (compute_interest_compounded_in_arrears 1 1 2 1
      [(0, 1/20), (1, 1/20), (2, 1/20)] 365 0 0 none none false).map
      (fun r => r.compounded_factor) = .ok (7301/7300) := by
    norm_num +decide [compute_interest_compounded_in_arrears, accrueLoop,
      accrueStep, previous_business_day, next_business_day,
      shift_back_business_days, bsearchLE, bsearchGE, rateAt, applyFactor,
      assembleResult, marginSplit, quantizeDec, roundHalfUpInt, quantize_money,
      List.getD, List.get?, List.indexOf, List.findIdx, List.findIdx.go,
      lookup_cons_int, lookup_nil_rat, Int.toNat_ofNat, Except.map,
      -Prod.mk_zero_zero, -Prod.mk_one_one]
  cases hc : compute_interest_compounded_in_arrears 1 1 2 1
      [(0, 1/20), (1, 1/20), (2, 1/20)] 365 0 0 none none false with
  | error e => rw [hc] at hmap; exact absurd hmap (by simp [Except.map])
  | ok r =>
    have h1 := C1_growth_factor (by unfold SortedKeys; decide) hc
    rw [hc] at hmap
    have h2 : r.compounded_factor = 7301/7300 := by
      simpa [Except.map] using hmap
    rw [h2] at h1
    exact h1

theorem C2_witness :
    ∃ z : ℤ, (1000136986301369863 : ℚ) / 10 ^ 18 = (z : ℚ) / 10 ^ 18 := by
  have hloop : accrueLoop [(0, 1/20), (1, 1/20), (2, 1/20)] [0, 1, 2] 1 2 365
      true 1 1 1 = .ok (1000136986301369863 / 10 ^ 18) := by
    norm_num +decide [accrueLoop, accrueStep, previous_business_day,
      next_business_day, shift_back_business_days, bsearchLE, bsearchGE,
      rateAt, applyFactor, quantizeDec, roundHalfUpInt, List.getD, List.get?,
      List.indexOf, List.findIdx, List.findIdx.go, lookup_cons_int,
      lookup_nil_rat, Int.toNat_ofNat, -Prod.mk_zero_zero, -Prod.mk_one_one]
  exact C2_intermediate_quantization.2.2 [(0, 1/20), (1, 1/20), (2, 1/20)]
    [0, 1, 2] 1 2 365 1 1 1 (1000136986301369863 / 10 ^ 18)
    (by decide) (by decide) hloop

theorem C3_witness :
    ∃ res, compute_interest_compounded_in_arrears 1 1 2 1
      [(0, 1/20), (1, 1/20), (2, 1/20)] 365 (1/100) 0 none (some (2/100)) false
      = .ok res ∧ res.pre_days + res.post_days = 2 - 1 := by
  have hmap : (compute_interest_compounded_in_arrears 1 1 2 1
      [(0, 1/20), (1, 1/20), (2, 1/20)] 365 (1/100) 0 none (some (2/100))
      false).map (fun r => r.pre_days) = .ok 1 := by
    norm_num +decide [compute_interest_compounded_in_arrears, accrueLoop,
      accrueStep, previous_business_day, next_business_day,
      shift_back_business_days, bsearchLE, bsearchGE, rateAt, applyFactor,
      assembleResult, marginSplit, quantizeDec, roundHalfUpInt, quantize_money,
      List.getD, List.get?, List.indexOf, List.findIdx, List.findIdx.go,
      lookup_cons_int, lookup_nil_rat, Int.toNat_ofNat, Except.map,
      -Prod.mk_zero_zero, -Prod.mk_one_one]
  cases hc : compute_interest_compounded_in_arrears 1 1 2 1
      [(0, 1/20), (1, 1/20), (2, 1/20)] 365 (1/100) 0 none (some (2/100))
      false with
  | error e => rw [hc] at hmap; exact absurd hmap (by simp [Except.map])
  | ok r => exact ⟨r, rfl, C3_split_sums_to_dc hc⟩

theorem C4_witness :
    ∃ res, compute_interest_compounded_in_arrears 1 1 2 1
      [(0, 1/20), (1, 1/20), (2, 1/20)] 365 (1/100) 0 (some 1) (some (2/100))
      false = .ok res ∧ res.pre_days = 0 ∧ res.post_days = 2 - 1 := by
  have hmap : (compute_interest_compounded_in_arrears 1 1 2 1
      [(0, 1/20), (1, 1/20), (2, 1/20)] 365 (1/100) 0 (some 1) (some (2/100))
      false).map (fun r => r.pre_days) = .ok 0 := by
    norm_num +decide [compute_interest_compounded_in_arrears, accrueLoop,
      accrueStep, previous_business_day, next_business_day,
      shift_back_business_days, bsearchLE, bsearchGE, rateAt, applyFactor,
      assembleResult, marginSplit, quantizeDec, roundHalfUpInt, quantize_money,
      List.getD, List.get?, List.indexOf, List.findIdx, List.findIdx.go,
      lookup_cons_int, lookup_nil_rat, Int.toNat_ofNat, Except.map,
      -Prod.mk_zero_zero, -Prod.mk_one_one]
  cases hc : compute_interest_compounded_in_arrears 1 1 2 1
      [(0, 1/20), (1, 1/20), (2, 1/20)] 365 (1/100) 0 (some 1) (some (2/100))
      false with
  | error e => rw [hc] at hmap; exact absurd hmap (by simp [Except.map])
  | ok r =>
    have h1 := (C4_change_date_boundaries hc).1 (by decide)
    exact ⟨r, rfl, h1.1, h1.2.1⟩

theorem C5_witness :
    ∃ res, compute_interest_compounded_in_arrears 1 1 2 1
      [(0, 1/20), (1, 1/20), (2, 1/20)] 365 (1/100) 0 none (some (2/100)) false
      = .ok res ∧ res.pre_days = 2 - 1 ∧ res.post_days = 0 ∧
      res.margin_post = (some ((2:ℚ)/100)).getD (1/100) := by
  have hmap : (compute_interest_compounded_in_arrears 1 1 2 1
      [(0, 1/20), (1, 1/20), (2, 1/20)] 365 (1/100) 0 none (some (2/100))
      false).map (fun r => r.post_days) = .ok 0 := by
    norm_num +decide [compute_interest_compounded_in_arrears, accrueLoop,
      accrueStep, previous_business_day, next_business_day,
      shift_back_business_days, bsearchLE, bsearchGE, rateAt, applyFactor,
      assembleResult, marginSplit, quantizeDec, roundHalfUpInt, quantize_money,
      List.getD, List.get?, List.indexOf, List.findIdx, List.findIdx.go,
      lookup_cons_int, lookup_nil_rat, Int.toNat_ofNat, Except.map,
      -Prod.mk_zero_zero, -Prod.mk_one_one]
  cases hc : compute_interest_compounded_in_arrears 1 1 2 1
      [(0, 1/20), (1, 1/20), (2, 1/20)] 365 (1/100) 0 none (some (2/100))
      false with
  | error e => rw [hc] at hmap; exact absurd hmap (by simp [Except.map])
  | ok r =>
    obtain ⟨h1, h2, -, h4, -, -⟩ := C5_no_change_date hc
    exact ⟨r, rfl, h1, h2, h4⟩

theorem C6_witness :
    quantize_money (1/250 + 1/250)
      ≠ quantize_money (1/250) + quantize_money (1/250) := by
  have hmap : (compute_interest_compounded_in_arrears 1 1 2 1
      [(0, 1/20), (1, 1/20), (2, 1/20)] 365 0 0 none none false).map
      (fun r => r.dc) = .ok 1 := by
    norm_num +decide [compute_interest_compounded_in_arrears, accrueLoop,
      accrueStep, previous_business_day, next_business_day,
      shift_back_business_days, bsearchLE, bsearchGE, rateAt, applyFactor,
      assembleResult, marginSplit, quantizeDec, roundHalfUpInt, quantize_money,
      List.getD, List.get?, List.indexOf, List.findIdx, List.findIdx.go,
      lookup_cons_int, lookup_nil_rat, Int.toNat_ofNat, Except.map,
      -Prod.mk_zero_zero, -Prod.mk_one_one]
  cases hc : compute_interest_compounded_in_arrears 1 1 2 1
      [(0, 1/20), (1, 1/20), (2, 1/20)] 365 0 0 none none false with
  | error e => rw [hc] at hmap; exact absurd hmap (by simp [Except.map])
  | ok r => exact (C6_component_rounding hc).2.2.2.2

theorem C7_witness :
    shift_back_business_days [0, 1, 2, 10] 10 5
      = .error .insufficientHistory :=
  ((C7_shift_back [0, 1, 2, 10] 10 5 (by decide) (by decide)).2 3 (by decide)
    (by decide)).2 (by decide)

theorem C8_witness :
    accrueLoop [(0, 1/20), (1, 1/20), (2, 1/20)] [0, 1, 2] 1 2 365 false 5 1 1
      = accrueLoop [(0, 1/20), (1, 1/20), (2, 1/20)] [0, 1, 2] 1 2 365 false
          1 1 1 :=
  C8_loop_terminates.2 [(0, 1/20), (1, 1/20), (2, 1/20)] [0, 1, 2] 1 2 365
    false 5 1 1 1 (by decide) (by decide)

theorem C9_witness :
    compute_interest_compounded_in_arrears 1 1 3 1 [(0, 1/20), (1, 1/20)] 365
      0 0 none none false = .error .noBusinessDay :=
  @C9_end_past_last_rate 1 1 3 1 [(0, 1/20), (1, 1/20)] 365 0 0 none none
    false 1 0 (by unfold SortedKeys; decide) (by decide) (by decide)
    (by decide) (by decide) (by rfl) (by rfl)

theorem C10_witness :
    ∃ res res',
      compute_interest_compounded_in_arrears 1000 1 3 1
        [(0, 0), (1, 0), (2, 0), (3, 0)] 360 0 0 none none false = .ok res ∧
      compute_interest_compounded_in_arrears 1000 1 3 1
        [(0, 1), (1, 0), (2, 0), (3, 0)] 360 0 0 none none false = .ok res' ∧
      res.interest_rfr ≤ res'.interest_rfr := by
  have hmap : (compute_interest_compounded_in_arrears 1000 1 3 1
      [(0, 0), (1, 0), (2, 0), (3, 0)] 360 0 0 none none false).map
      (fun r => r.interest_rfr) = .ok 0 := by
    norm_num +decide [compute_interest_compounded_in_arrears, accrueLoop,
      accrueStep, previous_business_day, next_business_day,
      shift_back_business_days, bsearchLE, bsearchGE, rateAt, applyFactor,
      assembleResult, marginSplit, quantizeDec, roundHalfUpInt, quantize_money,
      List.getD, List.get?, List.indexOf, List.findIdx, List.findIdx.go,
      lookup_cons_int, lookup_nil_rat, Int.toNat_ofNat, Except.map,
      -Prod.mk_zero_zero, -Prod.mk_one_one]
  have hmap' : (compute_interest_compounded_in_arrears 1000 1 3 1
      [(0, 1), (1, 0), (2, 0), (3, 0)] 360 0 0 none none false).map
      (fun r => r.interest_rfr) = .ok (139/50) := by
    norm_num +decide [compute_interest_compounded_in_arrears, accrueLoop,
      accrueStep, previous_business_day, next_business_day,
      shift_back_business_days, bsearchLE, bsearchGE, rateAt, applyFactor,
      assembleResult, marginSplit, quantizeDec, roundHalfUpInt, quantize_money,
      List.getD, List.get?, List.indexOf, List.findIdx, List.findIdx.go,
      lookup_cons_int, lookup_nil_rat, Int.toNat_ofNat, Except.map,
      -Prod.mk_zero_zero, -Prod.mk_one_one]
  cases hc : compute_interest_compounded_in_arrears 1000 1 3 1
      [(0, 0), (1, 0), (2, 0), (3, 0)] 360 0 0 none none false with
  | error e => rw [hc] at hmap; exact absurd hmap (by simp [Except.map])
  | ok r =>
    cases hc' : compute_interest_compounded_in_arrears 1000 1 3 1
        [(0, 1), (1, 0), (2, 0), (3, 0)] 360 0 0 none none false with
    | error e => rw [hc'] at hmap'; exact absurd hmap' (by simp [Except.map])
    | ok r' =>
      refine ⟨r, r', rfl, rfl, ?_⟩
      exact @C10_rate_monotonicity 1000 1 3 1
        [(0, 0), (1, 0), (2, 0), (3, 0)] [(0, 1), (1, 0), (2, 0), (3, 0)]
        360 0 0 none none false r r' 0
        (by decide)
        (by intro h h'; show (0:ℚ) ≤ 1; norm_num)
        (by intro i h h' hne
            have h4 : i < 4 := by simpa using h
            interval_cases i
            · exact absurd rfl hne
            · rfl
            · rfl
            · rfl)
        (by intro p hp; fin_cases hp <;> norm_num)
        (by norm_num) (by decide) hc hc'
